import Mathlib

/-!
Verification development for the lingua/rosetta translation runtime.

The definitions below are shallow embeddings of the TypeScript sources:
 - `hashText` / `djb33x`       from src/hash.ts       (part_005)
 - `interpolate`               from src/interpolate.ts (part_004), including the
   JavaScript `String.replaceAll` replacement-string semantics (`$$`, `$&`,
   dollar-backtick, dollar-quote escapes) and `Object.entries` iteration order
 - `defaultT` / `providerT`    from the React provider (part_000)
 - `loadTranslations`          from the server I18n class (part_001)
 - `validateManifest`          from the Next sync module (part_015)

Strings are modelled by Lean `String`; JavaScript string indexing (`charCodeAt`)
is modelled by expanding each scalar into its UTF-16 code units.  JavaScript
numbers inside params records enter the model as their decimal renderings, and
objects are association lists in insertion order (JS objects cannot carry
duplicate keys, and machine-level `% 2 ^ 32` models the `>>> 0` / `ToInt32`
folding of the hash accumulator).
-/

namespace Lingua

/-- UTF-16 code units of a Unicode scalar, as produced by `charCodeAt`. -/
def utf16Units (c : Char) : List Nat :=
  if c.toNat < 65536 then [c.toNat]
  else [55296 + (c.toNat - 65536) / 1024, 56320 + (c.toNat - 65536) % 1024]

/-- The JavaScript WhiteSpace and LineTerminator characters stripped by
`String.prototype.trim`. -/
def jsWhitespace (c : Char) : Bool :=
  c == ' ' || c == '\t' || c == '\n' || c == '\r' || c == '\x0b' || c == '\x0c' ||
  c == ' ' || c == '﻿' || c == ' ' ||
  (decide (' ' ≤ c) && decide (c ≤ ' ')) ||
  c == ' ' || c == ' ' || c == ' ' || c == ' ' || c == '　'

/-- `String.prototype.trim`: drop leading and trailing JS whitespace. -/
def jsTrim (s : String) : String :=
  ⟨(((s.data.dropWhile jsWhitespace).reverse.dropWhile jsWhitespace)).reverse⟩

/-- One step of the DJB33X loop: `hash = (hash * 33) ^ str.charCodeAt(i)`,
with the 32-bit folding of JavaScript bitwise operators. -/
def djb33xStep (h u : Nat) : Nat := ((h * 33) ^^^ u) % 2 ^ 32

/-- `djb33x` from src/hash.ts: seed 5381, multiply by 33, XOR each UTF-16 code
unit, folded to an unsigned 32-bit integer. -/
def djb33x (s : String) : Nat :=
  (s.data.flatMap utf16Units).foldl djb33xStep 5381

/-- `n.toString(16).padStart(8, '0')`: lowercase hex, left-padded to 8 digits. -/
def toHex8 (n : Nat) : String :=
  ⟨List.replicate (8 - (Nat.toDigits 16 n).length) '0' ++ Nat.toDigits 16 n⟩

/-- `hashText` from src/hash.ts.  The conditional `context ?` is JavaScript
truthiness, so the empty string behaves like an absent context. -/
def hashText (text : String) (context : Option String) : String :=
  let input :=
    match context with
    | some c => if c = "" then jsTrim text else c ++ "::" ++ jsTrim text
    | none => jsTrim text
  toHex8 (djb33x input)

/-- Reference hash from the specification's words (claim C1): the accumulator
is an unbounded integer folded to 32 bits only at the end, and a supplied
context (even the empty string) always contributes the `"context::"` prefix. -/
def refHashText (text : String) (context : Option String) : String :=
  let input :=
    match context with
    | some c => c ++ "::" ++ jsTrim text
    | none => jsTrim text
  toHex8 ((input.data.flatMap utf16Units).foldl (fun h u => (h * 33) ^^^ u) 5381 % 2 ^ 32)

/-- Lowercase-hexadecimal character test for the `^[0-9a-f]{8}$` key format. -/
def isHexLower (c : Char) : Bool :=
  (decide ('0' ≤ c) && decide (c ≤ '9')) || (decide ('a' ≤ c) && decide (c ≤ 'f'))

theorem data_mk (l : List Char) : (⟨l⟩ : String).data = l := rfl

theorem xor_mod_congr {x y : Nat} (u : Nat) (h : x % 2 ^ 32 = y % 2 ^ 32) :
    (x ^^^ u) % 2 ^ 32 = (y ^^^ u) % 2 ^ 32 := by
  apply Nat.eq_of_testBit_eq
  intro i
  by_cases hi : i < 32
  · have hx : x.testBit i = y.testBit i := by
      have h2 := congrArg (fun t => Nat.testBit t i) h
      simp only [Nat.testBit_mod_two_pow] at h2
      simpa [hi] using h2
    simp only [Nat.testBit_mod_two_pow, Nat.testBit_xor]
    simp [hi, hx]
  · simp only [Nat.testBit_mod_two_pow]
    simp [hi]

theorem djb_step_congr {a b : Nat} (u : Nat) (h : a % 2 ^ 32 = b % 2 ^ 32) :
    ((a * 33) ^^^ u) % 2 ^ 32 = ((b * 33) ^^^ u) % 2 ^ 32 := by
  apply xor_mod_congr
  rw [Nat.mul_mod, h, ← Nat.mul_mod]

theorem foldl_djb_mod (l : List Nat) : ∀ a : Nat,
    l.foldl djb33xStep (a % 2 ^ 32) = l.foldl (fun h u => (h * 33) ^^^ u) a % 2 ^ 32 := by
  induction l with
  | nil => intro a; rfl
  | cons u t ih =>
    intro a
    have hstep : djb33xStep (a % 2 ^ 32) u = ((a * 33) ^^^ u) % 2 ^ 32 := by
      show ((a % 2 ^ 32) * 33 ^^^ u) % 2 ^ 32 = ((a * 33) ^^^ u) % 2 ^ 32
      exact djb_step_congr u (Nat.mod_mod_of_dvd a dvd_rfl)
    calc (u :: t).foldl djb33xStep (a % 2 ^ 32)
        = t.foldl djb33xStep (((a * 33) ^^^ u) % 2 ^ 32) := by
          rw [List.foldl_cons, hstep]
      _ = t.foldl (fun h u => (h * 33) ^^^ u) ((a * 33) ^^^ u) % 2 ^ 32 := ih _
      _ = (u :: t).foldl (fun h u => (h * 33) ^^^ u) a % 2 ^ 32 := by
          rw [List.foldl_cons]

theorem djb33x_eq_ref (s : String) :
    djb33x s = (s.data.flatMap utf16Units).foldl (fun h u => (h * 33) ^^^ u) 5381 % 2 ^ 32 := by
  have h1 : (5381 : Nat) % 2 ^ 32 = 5381 := by norm_num
  have h2 := foldl_djb_mod (s.data.flatMap utf16Units) 5381
  rw [h1] at h2
  exact h2

/-- C10: an empty-string context is treated exactly like an absent context by
`hashText`, because the source guards the prefix with JavaScript truthiness:
`hashText text (some "")` equals `hashText text none` for every text. -/
theorem hashText_empty_context_eq_no_context (text : String) :
    hashText text (some "") = hashText text none := rfl

/-- C1 counterexample: at `text = ""` and `context = some ""` the code hashes
the bare trimmed text while the claim's reference definition hashes `"::"`,
so `hashText` differs from the reference at this concrete input. -/
theorem hashText_reference_counterexample :
    hashText "" (some "") ≠ refHashText "" (some "") := by decide

/-- C1 (amended): for every text and every context that is not the empty
string, `hashText` agrees with the reference definition — trimmed text,
`"context::"` prefix when a (non-empty) context is supplied, seed 5381,
multiply by 33 and XOR each UTF-16 code unit, folded to 32 bits, rendered as
8 zero-padded lowercase hex digits. -/
theorem hashText_matches_reference (text : String) (ctx : Option String)
    (h : ctx ≠ some "") : hashText text ctx = refHashText text ctx := by
  cases ctx with
  | none =>
    simpa [hashText, refHashText] using
      congrArg toHex8 (djb33x_eq_ref (jsTrim text))
  | some c =>
    have hc : ¬c = "" := fun e => h (by rw [e])
    simpa [hashText, refHashText, hc] using
      congrArg toHex8 (djb33x_eq_ref (c ++ "::" ++ jsTrim text))

/-- C1 witness: the amended agreement evaluated at a concrete text/context. -/
theorem hashText_matches_reference_witness :
    hashText "Submit" (some "form") = refHashText "Submit" (some "form") :=
  hashText_matches_reference "Submit" (some "form") (by decide)

theorem foldl_djb_lt (l : List Nat) : ∀ a : Nat, a < 2 ^ 32 →
    l.foldl djb33xStep a < 2 ^ 32 := by
  induction l with
  | nil => intro a ha; simpa using ha
  | cons u t ih =>
    intro a ha
    exact ih _ (Nat.mod_lt _ (by norm_num))

theorem djb33x_lt (s : String) : djb33x s < 2 ^ 32 :=
  foldl_djb_lt _ 5381 (by norm_num)

theorem toDigitsCore_length_le :
    ∀ (fuel n : Nat) (ds : List Char) (k : Nat), n < 16 ^ k → 0 < k →
      (Nat.toDigitsCore 16 fuel n ds).length ≤ ds.length + k := by
  intro fuel
  induction fuel with
  | zero =>
    intro n ds k _ hk
    simp [Nat.toDigitsCore]
  | succ fuel ih =>
    intro n ds k hn hk
    by_cases hq : n / 16 = 0
    · simp [Nat.toDigitsCore, hq]
      omega
    · have h16 : 16 ≤ n := by
        rcases Nat.lt_or_ge n 16 with h | h
        · exact absurd (Nat.div_eq_of_lt h) hq
        · exact h
      have hk2 : 2 ≤ k := by
        by_contra hlt
        have hk1 : k = 1 := by omega
        rw [hk1] at hn
        simp at hn
        omega
      have hdiv : n / 16 < 16 ^ (k - 1) := by
        rw [Nat.div_lt_iff_lt_mul (by norm_num : (0:Nat) < 16)]
        have : 16 ^ (k - 1) * 16 = 16 ^ k := by
          rw [← Nat.pow_succ]
          congr 1
          omega
        rw [this]
        exact hn
      have := ih (n / 16) (Nat.digitChar (n % 16) :: ds) (k - 1) hdiv (by omega)
      simp [Nat.toDigitsCore, hq]
      simp at this
      omega

theorem toDigitsCore_hex :
    ∀ (fuel n : Nat) (ds : List Char), ds.all isHexLower = true →
      (Nat.toDigitsCore 16 fuel n ds).all isHexLower = true := by
  intro fuel
  induction fuel with
  | zero => intro n ds h; simpa [Nat.toDigitsCore] using h
  | succ fuel ih =>
    intro n ds h
    have hall : ∀ m, m < 16 → isHexLower (Nat.digitChar m) = true := by decide
    have hd : isHexLower (Nat.digitChar (n % 16)) = true :=
      hall _ (Nat.mod_lt _ (by norm_num))
    by_cases hq : n / 16 = 0
    · simp [Nat.toDigitsCore, hq, hd, h]
    · have := ih (n / 16) (Nat.digitChar (n % 16) :: ds) (by simp [hd, h])
      simpa [Nat.toDigitsCore, hq] using this

theorem toHex8_length {n : Nat} (hn : n < 2 ^ 32) : (toHex8 n).length = 8 := by
  have h16 : n < 16 ^ 8 := by
    have he : (2 : Nat) ^ 32 = 16 ^ 8 := by norm_num
    rwa [he] at hn
  have hlen : (Nat.toDigits 16 n).length ≤ 8 := by
    have := toDigitsCore_length_le (n + 1) n [] 8 h16 (by norm_num)
    simpa [Nat.toDigits] using this
  have hrw : (toHex8 n).length =
      (8 - (Nat.toDigits 16 n).length) + (Nat.toDigits 16 n).length := by
    simp [toHex8, String.length]
  omega

theorem toHex8_hex (n : Nat) : (toHex8 n).data.all isHexLower = true := by
  have hd : (Nat.toDigits 16 n).all isHexLower = true :=
    toDigitsCore_hex _ _ [] rfl
  have hz : (List.replicate (8 - (Nat.toDigits 16 n).length) '0').all isHexLower = true := by
    rw [List.all_eq_true]
    intro c hc
    rw [List.eq_of_mem_replicate hc]
    decide
  show (List.replicate (8 - (Nat.toDigits 16 n).length) '0' ++
    Nat.toDigits 16 n).all isHexLower = true
  rw [List.all_append]
  simp [hd, hz]

/-- C2: for every text and optional context (including the empty string and
arbitrary Unicode), `hashText` returns a string of exactly 8 lowercase
hexadecimal characters, i.e. it matches `^[0-9a-f]{8}$`. -/
theorem hashText_key_format (text : String) (ctx : Option String) :
    (hashText text ctx).length = 8 ∧ (hashText text ctx).data.all isHexLower = true := by
  cases ctx with
  | none => exact ⟨toHex8_length (djb33x_lt _), toHex8_hex _⟩
  | some c =>
    by_cases hc : c = ""
    · rw [show hashText text (some c) = toHex8 (djb33x (jsTrim text)) from by
        simp [hashText, hc]]
      exact ⟨toHex8_length (djb33x_lt _), toHex8_hex _⟩
    · rw [show hashText text (some c) = toHex8 (djb33x (c ++ "::" ++ jsTrim text)) from by
        simp [hashText, hc]]
      exact ⟨toHex8_length (djb33x_lt _), toHex8_hex _⟩

theorem dropWhile_dropWhile (p : Char → Bool) :
    ∀ l : List Char, (l.dropWhile p).dropWhile p = l.dropWhile p := by
  intro l
  induction l with
  | nil => rfl
  | cons a t ih =>
    by_cases h : p a = true
    · simp [List.dropWhile_cons, h, ih]
    · simp [List.dropWhile_cons, h]

theorem dropWhile_head_not (p : Char → Bool) :
    ∀ l : List Char, l.dropWhile p = [] ∨ ∃ a t, l.dropWhile p = a :: t ∧ p a = false := by
  intro l
  induction l with
  | nil => exact Or.inl rfl
  | cons a t ih =>
    by_cases h : p a = true
    · simpa [List.dropWhile_cons, h] using ih
    · exact Or.inr ⟨a, t, by simp [List.dropWhile_cons, h], by simpa using h⟩

theorem dropWhile_append_last (p : Char → Bool) (h : Char) (hh : p h = false) :
    ∀ u : List Char, ∃ v, (u ++ [h]).dropWhile p = v ++ [h] := by
  intro u
  induction u with
  | nil => exact ⟨[], by simp [List.dropWhile_cons, hh]⟩
  | cons c u ih =>
    by_cases hc : p c = true
    · obtain ⟨v, hv⟩ := ih
      exact ⟨v, by simp [List.dropWhile_cons, hc, hv]⟩
    · exact ⟨c :: u, by simp [List.dropWhile_cons, hc]⟩

theorem jsTrim_idem (s : String) : jsTrim (jsTrim s) = jsTrim s := by
  rcases dropWhile_head_not jsWhitespace s.data with h0 | ⟨a, t, h0, ha⟩
  · have h1 : jsTrim s = ⟨[]⟩ := by simp [jsTrim, h0]
    rw [h1]
    rfl
  · obtain ⟨v, hv⟩ := dropWhile_append_last jsWhitespace a ha t.reverse
    have h2 : jsTrim s = ⟨a :: v.reverse⟩ := by
      simp [jsTrim, h0, hv]
    rw [h2]
    have h3 : (a :: v.reverse).dropWhile jsWhitespace = a :: v.reverse := by
      simp [List.dropWhile_cons, ha]
    have h5 : (v ++ [a]).dropWhile jsWhitespace = v ++ [a] := by
      calc (v ++ [a]).dropWhile jsWhitespace
          = ((t.reverse ++ [a]).dropWhile jsWhitespace).dropWhile jsWhitespace := by
            rw [hv]
        _ = (t.reverse ++ [a]).dropWhile jsWhitespace := dropWhile_dropWhile _ _
        _ = v ++ [a] := hv
    simp [jsTrim, data_mk, h3, h5]

/-- Boolean test that `pat` is an initial segment of the second list, used to
locate `replaceAll` match positions. -/
def startsWithL : List Char → List Char → Bool
  | [], _ => true
  | _ :: _, [] => false
  | a :: as, b :: bs => a == b && startsWithL as bs

/-- `GetSubstitution` for a string search value (ECMA-262): in the replacement
string, `$$` yields `$`, `$&` the matched text, `$` + backtick the part of the
subject before the match, `$` + quote the part after it; any other `$` sequence
is literal (there are no capture groups for a string pattern). -/
def substDollar (matched before after : List Char) : List Char → List Char
  | [] => []
  | c :: r =>
    if c = '$' then
      match r with
      | [] => ['$']
      | d :: r2 =>
        if d = '$' then '$' :: substDollar matched before after r2
        else if d = '&' then matched ++ substDollar matched before after r2
        else if d = '\x60' then before ++ substDollar matched before after r2
        else if d = '\x27' then after ++ substDollar matched before after r2
        else '$' :: d :: substDollar matched before after r2
    else c :: substDollar matched before after r

/-- Scanner for `String.prototype.replaceAll`: walk the subject left to right,
replace each non-overlapping occurrence of `pat` by the processed replacement,
and never rescan replaced output.  `consumedRev` holds the original characters
already passed (for the dollar-backtick segment); the fuel starts at the
subject length, which bounds the number of steps. -/
def raGo (pat rep : List Char) : Nat → List Char → List Char → List Char
  | _, _, [] => []
  | 0, _, rem => rem
  | fuel + 1, consumedRev, c :: rest =>
    if startsWithL pat (c :: rest) = true then
      substDollar pat consumedRev.reverse (List.drop pat.length (c :: rest)) rep ++
        raGo pat rep fuel
          ((List.take pat.length (c :: rest)).reverse ++ consumedRev)
          (List.drop pat.length (c :: rest))
    else
      c :: raGo pat rep fuel (c :: consumedRev) rest

/-- `s.replaceAll(pat, rep)` for a non-empty string pattern (the source only
ever passes brace-delimited keys, which are non-empty). -/
def replaceAllJS (s pat rep : String) : String :=
  if pat.data.isEmpty then s
  else ⟨raGo pat.data rep.data s.data.length [] s.data⟩

/-- `Object.entries` of a string value: index/character pairs in order. -/
def stringEntries (s : String) : List (String × String) :=
  s.data.enum.map (fun p => (toString p.1, (⟨[p.2]⟩ : String)))

/-- The loop body of `interpolate`: fold the params entries in insertion
order, replacing every occurrence of the brace-wrapped key. -/
def interpGo (text : String) (ps : List (String × String)) : String :=
  ps.foldl (fun acc kv => replaceAllJS acc ("\x7b" ++ kv.1 ++ "\x7d") kv.2) text

/-- The JavaScript value passed as the `params` argument of `interpolate`:
`undefined`, a params record (entries in insertion order, values already
rendered to strings), or — reachable through the options-sniffing paths — a
plain string. -/
inductive PArg where
  | undefV
  | recP (m : List (String × String))
  | strv (s : String)
deriving Repr

/-- `interpolate` from src/interpolate.ts: `if (!params) return text`, then
`result = result.replaceAll("\x7b" + key + "\x7d", String(value))` for each
entry of `Object.entries(params)`. -/
def interpolate (text : String) (p : PArg) : String :=
  match p with
  | .undefV => text
  | .strv s => if s = "" then text else interpGo text (stringEntries s)
  | .recP m => interpGo text m

/-- C7: the derived key is invariant under leading/trailing whitespace —
`hashText text ctx = hashText (text.trim()) ctx` for every text and context. -/
theorem hashText_trim_invariance (text : String) (ctx : Option String) :
    hashText text ctx = hashText (jsTrim text) ctx := by
  cases ctx with
  | none => simp [hashText, jsTrim_idem]
  | some c =>
    by_cases hc : c = "" <;> simp [hashText, hc, jsTrim_idem]

/-- A well-typed JavaScript value stored in the second argument of `t`:
either a string (numbers enter as their decimal rendering) or a nested params
record, as in `TranslateOptions.params`. -/
inductive JVal where
  | str (s : String)
  | map (m : List (String × String))
deriving DecidableEq, Repr

/-- A JavaScript object in insertion order (JS objects have no duplicate
keys and, in this model, no `undefined`-valued properties). -/
abbrev JObj := List (String × JVal)

/-- `String(value)` for a params-record value. -/
def jvalString : JVal → String
  | .str s => s
  | .map _ => "[object Object]"

/-- `Object.entries` view of an object used directly as interpolation params. -/
def objToParams (o : JObj) : List (String × String) :=
  o.map (fun kv => (kv.1, jvalString kv.2))

/-- `opts.context` as it reaches `hashText` (template-literal stringification
for the ill-typed object case). -/
def getContextVal (o : JObj) : Option String :=
  match o.lookup "context" with
  | some (.str s) => some s
  | some (.map _) => some "[object Object]"
  | none => none

/-- `opts.params` as it reaches `interpolate`. -/
def getParamsVal (o : JObj) : PArg :=
  match o.lookup "params" with
  | some (.map m) => .recP m
  | some (.str s) => .strv s
  | none => .undefV

/-- `Object.keys(paramsOrOptions).every((k) => k === "context" || k === "params")`. -/
def optionsShape (o : JObj) : Bool :=
  o.all (fun kv => kv.1 == "context" || kv.1 == "params")

/-- The provider's sniffing heuristic from part_000 lines 99-103: the object
is options when it has a `context` or `params` key and every key is one of
those two. -/
def isTranslateOptions (o : JObj) : Bool :=
  ((o.lookup "context").isSome || (o.lookup "params").isSome) && optionsShape o

/-- Lines 117-119 of part_000, shared by every lookup path: derive the key
with `hashText`, take the translation for it with fallback to the source text
(`translations[hash] ?? text`), then interpolate. -/
def lookupT (translations : List (String × String)) (text : String)
    (context : Option String) (params : PArg) : String :=
  interpolate ((translations.lookup (hashText text context)).getD text) params

/-- `RosettaProvider`'s `t` from part_000 lines 96-120. -/
def providerT (translations : List (String × String)) (text : String)
    (arg : Option JObj) : String :=
  match arg with
  | none => lookupT translations text none .undefV
  | some o =>
    if isTranslateOptions o = true then
      lookupT translations text (getContextVal o) (getParamsVal o)
    else
      lookupT translations text none (.recP (objToParams o))

/-- The default `t` of `RosettaReactContext` (part_000 lines 52-62), used when
no provider is mounted: only checks for a `params` key, then interpolates the
source text without any translation lookup. -/
def defaultT (text : String) (arg : Option JObj) : String :=
  match arg with
  | none => interpolate text .undefV
  | some o =>
    match o.lookup "params" with
    | some (.map m) => interpolate text (.recP m)
    | some (.str s) => interpolate text (.strv s)
    | none => interpolate text (.recP (objToParams o))

/-- `I18n.loadTranslations` (part_001 lines 248-259) restricted to its pure
content: the default locale needs no translations (empty map), any other
locale gets the storage adapter's map.  The TTL cache only memoizes this same
value and the `bySource` map is unused by lookup, so both are omitted. -/
def loadTranslations (defaultLocale locale : String)
    (storageMap : List (String × String)) : List (String × String) :=
  if locale = defaultLocale then [] else storageMap

/-- Classification of the second argument written from the words of claim C8:
options when every key is drawn from `context`/`params` (including the empty
object), direct interpolation params otherwise. -/
def tSpec (translations : List (String × String)) (text : String) (o : JObj) : String :=
  if optionsShape o = true then
    lookupT translations text (getContextVal o) (getParamsVal o)
  else
    lookupT translations text none (.recP (objToParams o))

/-- C3: in a translation scope, the key is `hashText(text, context)`; at the
default locale the loaded map is empty so the pattern is the source text,
otherwise it is the map entry for the key with fallback to the source text,
and the result is that pattern with the interpolation params applied. -/
theorem scope_lookup_spec (defaultLocale locale : String)
    (storageMap : List (String × String)) (text : String) (ctx : Option String)
    (params : PArg) :
    lookupT (loadTranslations defaultLocale locale storageMap) text ctx params =
      interpolate
        (if locale = defaultLocale then text
         else ((storageMap.lookup (hashText text ctx)).getD text))
        params := by
  by_cases hl : locale = defaultLocale
  · simp [loadTranslations, lookupT, hl, List.lookup]
  · simp [loadTranslations, lookupT, hl]

/-- C5: the code does not insert replacement values literally.  A value `$&`
re-inserts the matched placeholder, `$$` collapses to `$`, and a substituted
value containing a later key's placeholder is itself substituted again. -/
theorem interpolate_value_not_literal :
    interpolate "\x7bname\x7d" (.recP [("name", "$&")]) = "\x7bname\x7d" ∧
    ("\x7bname\x7d" : String) ≠ "$&" ∧
    interpolate "\x7bname\x7d" (.recP [("name", "$$")]) = "$" ∧
    interpolate "\x7ba\x7d" (.recP [("a", "\x7bb\x7d"), ("b", "X")]) = "X" ∧
    ("X" : String) ≠ "\x7bb\x7d" := by decide

/-- C6: the occurrence of `{a}` is not substituted with the string
representation of `params["a"]` when that value contains `$` escapes: with
`params = {a: "$$"}` the output is `$`, not `$$`. -/
theorem interpolate_substitution_not_value :
    interpolate "\x7ba\x7d" (.recP [("a", "$$")]) = "$" ∧
    ("$" : String) ≠ "$$" := by decide

/-- C4 counterexample: outside any scope, a second argument with only a
`context` key is treated as direct interpolation params by the fallback `t`,
while an in-scope call at the default locale treats it as options — so the
fallback is not "exactly as if the locale equalled the default locale". -/
theorem fallback_t_counterexample :
    defaultT "\x7bcontext\x7d" (some [("context", JVal.str "X")]) = "X" ∧
    providerT [] "\x7bcontext\x7d" (some [("context", JVal.str "X")]) = "\x7bcontext\x7d" ∧
    ("X" : String) ≠ "\x7bcontext\x7d" := by decide

/-- C4 (amended): outside any active scope `t` never throws; with no second
argument it returns the source text unchanged (in particular
`t "Hello" = "Hello"`), and it behaves exactly like an in-scope call at the
default locale whenever the second argument has neither a `context` nor a
`params` key, or has a `params` key and only keys drawn from
`context`/`params`. -/
theorem fallback_t_spec :
    (∀ text : String, defaultT text none = text) ∧
    (∀ (text : String) (o : JObj),
      (((o.lookup "params").isSome ∧ optionsShape o = true) ∨
        ((o.lookup "params") = none ∧ (o.lookup "context") = none)) →
      defaultT text (some o) = providerT [] text (some o)) ∧
    defaultT "Hello" none = "Hello" := by
  refine ⟨fun text => rfl, ?_, rfl⟩
  intro text o h
  rcases h with ⟨hp, hshape⟩ | ⟨hp, hc⟩
  · have hopt : isTranslateOptions o = true := by
      simp [isTranslateOptions, hshape, hp]
    rw [Option.isSome_iff_exists] at hp
    obtain ⟨v, hv⟩ := hp
    cases v with
    | str s =>
      simp [defaultT, providerT, hopt, lookupT, getParamsVal, hv, List.lookup]
    | map m =>
      simp [defaultT, providerT, hopt, lookupT, getParamsVal, hv, List.lookup]
  · have hopt : isTranslateOptions o = false := by
      simp [isTranslateOptions, hp, hc]
    simp [defaultT, providerT, hopt, lookupT, hp, List.lookup]

/-- C4 witness: the amended agreement at a concrete plain params object. -/
theorem fallback_t_spec_witness :
    ((([("x", JVal.str "y")] : JObj).lookup "params") = none ∧
      (([("x", JVal.str "y")] : JObj).lookup "context") = none) ∧
    defaultT "Hi" (some [("x", JVal.str "y")]) =
      providerT [] "Hi" (some [("x", JVal.str "y")]) :=
  ⟨⟨by decide, by decide⟩,
    fallback_t_spec.2.1 "Hi" [("x", JVal.str "y")] (Or.inr ⟨by decide, by decide⟩)⟩

theorem optionsShape_empty_of_no_keys {o : JObj} (hs : optionsShape o = true)
    (hc : o.lookup "context" = none) (hp : o.lookup "params" = none) : o = [] := by
  cases o with
  | nil => rfl
  | cons kv o' =>
    have hk : kv.1 = "context" ∨ kv.1 = "params" := by
      have := hs
      simp [optionsShape, List.all_cons] at this
      rcases this.1 with h | h
      · exact Or.inl h
      · exact Or.inr h
    rcases hk with hk | hk
    · exfalso
      have : (kv.1, kv.2) :: o' = ("context", kv.2) :: o' := by rw [hk]
      rw [show kv = (kv.1, kv.2) from rfl, this] at hc
      simp [List.lookup] at hc
    · exfalso
      have : (kv.1, kv.2) :: o' = ("params", kv.2) :: o' := by rw [hk]
      rw [show kv = (kv.1, kv.2) from rfl, this] at hp
      simp [List.lookup] at hp

/-- C8: the provider's `t` treats a second argument whose keys are all drawn
from `context`/`params` as a structured options object (context used for key
derivation, params for interpolation) and any other object in its entirety as
direct interpolation params, for every shape including the empty object
(whose two readings coincide). -/
theorem providerT_options_shape_spec (translations : List (String × String))
    (text : String) (o : JObj) :
    providerT translations text (some o) = tSpec translations text o := by
  by_cases hs : optionsShape o = true
  · by_cases hc : (o.lookup "context").isSome
    · have hopt : isTranslateOptions o = true := by
        simp [isTranslateOptions, hs, hc]
      simp [providerT, tSpec, hopt, hs]
    · by_cases hp : (o.lookup "params").isSome
      · have hopt : isTranslateOptions o = true := by
          simp [isTranslateOptions, hs, hp]
        simp [providerT, tSpec, hopt, hs]
      · have hnil : o = [] :=
          optionsShape_empty_of_no_keys hs
            (by simpa [Option.isSome_iff_exists, Option.eq_none_iff_forall_not_mem] using
              Option.not_isSome_iff_eq_none.mp hc)
            (Option.not_isSome_iff_eq_none.mp hp)
        subst hnil
        simp [providerT, tSpec, isTranslateOptions, optionsShape, lookupT,
          getContextVal, getParamsVal, objToParams, interpolate, interpGo, List.lookup]
  · have hsf : optionsShape o = false := by
      cases hob : optionsShape o
      · rfl
      · exact absurd hob hs
    have hopt : isTranslateOptions o = false := by
      simp [isTranslateOptions, hsf]
    simp [providerT, tSpec, hopt, hs]

/-- A manifest entry as validated by sync.ts: source text and its hash. -/
structure MEntry where
  text : String
  hash : String
deriving DecidableEq, Repr

/-- A raw JSON array element: `none` models a value that is not an object
with string `text`/`hash` fields. -/
abbrev RawEntry := Option MEntry

/-- The non-emptiness half of `isValidEntry` (the typeof checks are carried
by the `RawEntry` encoding). -/
def entryValid (e : MEntry) : Bool :=
  decide (0 < e.text.length) && decide (0 < e.hash.length)

/-- The `Entry i: Invalid structure, skipping` warning of validateManifest. -/
def skipMsg (i : Nat) : String :=
  "Entry " ++ toString i ++ ": Invalid structure, skipping"

/-- The hash-collision warning of validateManifest, naming the hash and the
two source texts. -/
def collisionMsg (h t1 t2 : String) : String :=
  "Hash collision: \"" ++ h ++ "\" maps to both \"" ++ t1 ++ "\" and \"" ++ t2 ++ "\""

/-- The loop of `validateManifest` (part_015 lines 100-122): skip invalid
entries with a warning, warn on a hash already seen with a different text,
skip duplicates, keep the first valid entry per hash. -/
def vmGo (i : Nat) (seen : List (String × String)) :
    List RawEntry → List MEntry × List String
  | [] => ([], [])
  | none :: rest =>
    ((vmGo (i + 1) seen rest).1, skipMsg i :: (vmGo (i + 1) seen rest).2)
  | some en :: rest =>
    if entryValid en = true then
      match seen.lookup en.hash with
      | some existingText =>
        if existingText = en.text then vmGo (i + 1) seen rest
        else ((vmGo (i + 1) seen rest).1,
          collisionMsg en.hash existingText en.text :: (vmGo (i + 1) seen rest).2)
      | none =>
        (en :: (vmGo (i + 1) ((en.hash, en.text) :: seen) rest).1,
          (vmGo (i + 1) ((en.hash, en.text) :: seen) rest).2)
    else
      ((vmGo (i + 1) seen rest).1, skipMsg i :: (vmGo (i + 1) seen rest).2)

/-- Result record of `validateManifest`; for an array input no error is ever
pushed, so `valid` is true and `errors` empty. -/
structure MResult where
  valid : Bool
  entries : List MEntry
  errors : List String
  warnings : List String
deriving Repr

/-- `validateManifest` from part_015 lines 88-130, on an array input. -/
def validateManifest (l : List RawEntry) : MResult :=
  { valid := true
    entries := (vmGo 0 [] l).1
    errors := []
    warnings := (vmGo 0 [] l).2 }

/-- The structurally valid entries of the raw array, in order. -/
def validEntries : List RawEntry → List MEntry
  | [] => []
  | none :: rest => validEntries rest
  | some en :: rest =>
    if entryValid en = true then en :: validEntries rest else validEntries rest

/-- Specification-side dedup: keep the first entry for each hash (relative to
hashes already seen), drop the rest. -/
def dedupFirst : List MEntry → List String → List MEntry
  | [], _ => []
  | e :: rest, keys =>
    if e.hash ∈ keys then dedupFirst rest keys
    else e :: dedupFirst rest (e.hash :: keys)

theorem lookup_cons_ne {β : Type} {a k : String} (v : β) (es : List (String × β))
    (h : a ≠ k) : List.lookup a ((k, v) :: es) = List.lookup a es := by
  have hb : (a == k) = false := beq_eq_false_iff_ne.mpr h
  simp [List.lookup, hb]

theorem lookup_isSome_iff_mem {β : Type} (seen : List (String × β)) (h : String) :
    (List.lookup h seen).isSome = true ↔ h ∈ seen.map Prod.fst := by
  induction seen with
  | nil => simp [List.lookup]
  | cons kv rest ih =>
    obtain ⟨k, v⟩ := kv
    by_cases he : h = k
    · subst he; simp [List.lookup]
    · have hb : (h == k) = false := beq_eq_false_iff_ne.mpr he
      simp [List.lookup, hb, ih, he]

theorem dedupFirst_not_mem_keys :
    ∀ (l : List MEntry) (keys : List String) (e : MEntry),
      e ∈ dedupFirst l keys → e.hash ∉ keys := by
  intro l
  induction l with
  | nil => intro keys e he; simp [dedupFirst] at he
  | cons a rest ih =>
    intro keys e he
    by_cases hm : a.hash ∈ keys
    · exact ih keys e (by simpa [dedupFirst, hm] using he)
    · have he' : e = a ∨ e ∈ dedupFirst rest (a.hash :: keys) := by
        simpa [dedupFirst, hm] using he
      rcases he' with rfl | he'
      · exact hm
      · intro hq
        exact ih (a.hash :: keys) e he' (List.mem_cons_of_mem _ hq)

theorem dedupFirst_nodup :
    ∀ (l : List MEntry) (keys : List String),
      ((dedupFirst l keys).map MEntry.hash).Nodup := by
  intro l
  induction l with
  | nil => intro keys; simp [dedupFirst]
  | cons a rest ih =>
    intro keys
    by_cases hm : a.hash ∈ keys
    · simpa [dedupFirst, hm] using ih keys
    · rw [show dedupFirst (a :: rest) keys = a :: dedupFirst rest (a.hash :: keys) from by
        simp [dedupFirst, hm]]
      rw [List.map_cons, List.nodup_cons]
      constructor
      · intro hmem
        obtain ⟨e, he, heq⟩ := List.mem_map.mp hmem
        exact dedupFirst_not_mem_keys rest (a.hash :: keys) e he
          (by rw [heq]; exact List.mem_cons_self _ _)
      · exact ih _

theorem fst_ite_pair (c : Prop) [Decidable c] (r : List MEntry × List String)
    (m : String) : (if c then r else (r.1, m :: r.2)).1 = r.1 := by
  split <;> rfl

theorem vmGo_entries_eq (l : List RawEntry) :
    ∀ (i : Nat) (seen : List (String × String)),
      (vmGo i seen l).1 = dedupFirst (validEntries l) (seen.map Prod.fst) := by
  induction l with
  | nil => intro i seen; rfl
  | cons e rest ih =>
    intro i seen
    cases e with
    | none => simpa [vmGo, validEntries] using ih (i + 1) seen
    | some en =>
      by_cases hv : entryValid en = true
      · cases hl : seen.lookup en.hash with
        | some t0 =>
          have hmem : en.hash ∈ seen.map Prod.fst :=
            (lookup_isSome_iff_mem seen en.hash).mp (by simp [hl])
          have h1 : (vmGo i seen (some en :: rest)).1 = (vmGo (i + 1) seen rest).1 := by
            simp [vmGo, hv, hl, fst_ite_pair]
          rw [h1, ih (i + 1) seen]
          simp [validEntries, hv, dedupFirst, hmem]
        | none =>
          have hmem : en.hash ∉ seen.map Prod.fst := by
            intro hm
            have := (lookup_isSome_iff_mem seen en.hash).mpr hm
            simp [hl] at this
          have h1 : (vmGo i seen (some en :: rest)).1 =
              en :: (vmGo (i + 1) ((en.hash, en.text) :: seen) rest).1 := by
            simp [vmGo, hv, hl]
          rw [h1, ih (i + 1) ((en.hash, en.text) :: seen)]
          simp [validEntries, hv, dedupFirst, hmem]
      · have h1 : (vmGo i seen (some en :: rest)).1 = (vmGo (i + 1) seen rest).1 := by
          simp [vmGo, hv]
        rw [h1, ih (i + 1) seen]
        simp [validEntries, hv]

theorem vmGo_collision_of_seen (l : List RawEntry) :
    ∀ (i : Nat) (seen : List (String × String)) (t0 t h : String),
      seen.lookup h = some t0 → (some ⟨t, h⟩ : RawEntry) ∈ l →
      entryValid ⟨t, h⟩ = true → t ≠ t0 →
      collisionMsg h t0 t ∈ (vmGo i seen l).2 := by
  induction l with
  | nil => intro i seen t0 t h _ hm _ _; simp at hm
  | cons e rest ih =>
    intro i seen t0 t h hl hm hv hne
    rcases List.mem_cons.mp hm with he | hm'
    · rw [← he]
      have hne' : ¬t0 = t := fun q => hne q.symm
      simp [vmGo, hv, hl, hne']
    · cases e with
      | none =>
        simp only [vmGo, List.mem_cons]
        exact Or.inr (ih (i + 1) seen t0 t h hl hm' hv hne)
      | some en =>
        by_cases hv' : entryValid en = true
        · cases hl' : seen.lookup en.hash with
          | some t0' =>
            by_cases ht : t0' = en.text
            · simpa [vmGo, hv', hl', ht] using ih (i + 1) seen t0 t h hl hm' hv hne
            · simp only [vmGo, hv', hl', ht, if_true, if_false, List.mem_cons]
              right
              exact ih (i + 1) seen t0 t h hl hm' hv hne
          | none =>
            have hhe : h ≠ en.hash := by
              intro q
              rw [q, hl'] at hl
              cases hl
            have hl2 : ((en.hash, en.text) :: seen).lookup h = some t0 := by
              rw [lookup_cons_ne _ _ hhe]
              exact hl
            simpa [vmGo, hv', hl'] using
              ih (i + 1) ((en.hash, en.text) :: seen) t0 t h hl2 hm' hv hne
        · have hb : entryValid en = false := by
            cases hq : entryValid en
            · rfl
            · exact absurd hq hv'
          simp only [vmGo, hb, Bool.false_eq_true, if_false, List.mem_cons]
          exact Or.inr (ih (i + 1) seen t0 t h hl hm' hv hne)

theorem vmGo_collision_of_pair (l : List RawEntry) :
    ∀ (i : Nat) (seen : List (String × String)) (t1 t2 h : String),
      List.Sublist [some ⟨t1, h⟩, some ⟨t2, h⟩] l →
      entryValid ⟨t1, h⟩ = true → entryValid ⟨t2, h⟩ = true → t1 ≠ t2 →
      seen.lookup h = none →
      ∃ ta tb, ta ≠ tb ∧ collisionMsg h ta tb ∈ (vmGo i seen l).2 := by
  induction l with
  | nil =>
    intro i seen t1 t2 h hsub _ _ _ _
    exact absurd (List.sublist_nil.mp hsub) (by simp)
  | cons e rest ih =>
    intro i seen t1 t2 h hsub hv1 hv2 hne hl
    cases hsub with
    | cons _ hsub' =>
      cases e with
      | none =>
        obtain ⟨ta, tb, hab, hmem⟩ := ih (i + 1) seen t1 t2 h hsub' hv1 hv2 hne hl
        exact ⟨ta, tb, hab, by
          simp only [vmGo, List.mem_cons]
          exact Or.inr hmem⟩
      | some en =>
        by_cases hv' : entryValid en = true
        · cases hl' : seen.lookup en.hash with
          | some t0' =>
            obtain ⟨ta, tb, hab, hmem⟩ := ih (i + 1) seen t1 t2 h hsub' hv1 hv2 hne hl
            by_cases ht : t0' = en.text
            · exact ⟨ta, tb, hab, by simpa [vmGo, hv', hl', ht] using hmem⟩
            · exact ⟨ta, tb, hab, by
                simp only [vmGo, hv', hl', ht, if_true, if_false, List.mem_cons]
                exact Or.inr hmem⟩
          | none =>
            by_cases hhe : en.hash = h
            · have hl2 : ((en.hash, en.text) :: seen).lookup h = some en.text := by
                rw [hhe]
                simp [List.lookup]
              have hm1 : (some ⟨t1, h⟩ : RawEntry) ∈ rest := hsub'.subset (by simp)
              have hm2 : (some ⟨t2, h⟩ : RawEntry) ∈ rest := hsub'.subset (by simp)
              have hd : t1 ≠ en.text ∨ t2 ≠ en.text := by
                by_contra hq
                push_neg at hq
                exact hne (hq.1.trans hq.2.symm)
              rcases hd with hd | hd
              · refine ⟨en.text, t1, fun q => hd q.symm, ?_⟩
                simpa [vmGo, hv', hl'] using
                  vmGo_collision_of_seen rest (i + 1) _ en.text t1 h hl2 hm1 hv1 hd
              · refine ⟨en.text, t2, fun q => hd q.symm, ?_⟩
                simpa [vmGo, hv', hl'] using
                  vmGo_collision_of_seen rest (i + 1) _ en.text t2 h hl2 hm2 hv2 hd
            · have hl2 : ((en.hash, en.text) :: seen).lookup h = none := by
                rw [lookup_cons_ne _ _ (fun q => hhe q.symm)]
                exact hl
              obtain ⟨ta, tb, hab, hmem⟩ :=
                ih (i + 1) ((en.hash, en.text) :: seen) t1 t2 h hsub' hv1 hv2 hne hl2
              exact ⟨ta, tb, hab, by simpa [vmGo, hv', hl'] using hmem⟩
        · obtain ⟨ta, tb, hab, hmem⟩ := ih (i + 1) seen t1 t2 h hsub' hv1 hv2 hne hl
          have hb : entryValid en = false := by
            cases hq : entryValid en
            · rfl
            · exact absurd hq hv'
          exact ⟨ta, tb, hab, by
            simp only [vmGo, hb, Bool.false_eq_true, if_false, List.mem_cons]
            exact Or.inr hmem⟩
    | cons₂ _ hsub' =>
      have hm2 : (some ⟨t2, h⟩ : RawEntry) ∈ rest := hsub'.subset (by simp)
      have hl2 : ((h, t1) :: seen).lookup h = some t1 := by simp [List.lookup]
      refine ⟨t1, t2, hne, ?_⟩
      have hmem := vmGo_collision_of_seen rest (i + 1) ((h, t1) :: seen) t1 t2 h
        hl2 hm2 hv2 (fun q => hne q.symm)
      simpa [vmGo, hv1, hl] using hmem

/-- C9: validateManifest keeps, in order, exactly the first structurally
valid entry for each hash (so the kept entries have pairwise distinct
hashes), and whenever two structurally valid entries carry the same hash
with different texts a hash-collision warning naming that hash (and two
differing texts) is emitted. -/
theorem validateManifest_spec (l : List RawEntry) :
    (validateManifest l).entries = dedupFirst (validEntries l) [] ∧
    ((validateManifest l).entries.map MEntry.hash).Nodup ∧
    (∀ t1 t2 h : String,
      0 < t1.length → 0 < t2.length → 0 < h.length → t1 ≠ t2 →
      List.Sublist [some ⟨t1, h⟩, some ⟨t2, h⟩] l →
      ∃ ta tb, ta ≠ tb ∧
        collisionMsg h ta tb ∈ (validateManifest l).warnings) := by
  have hent : (validateManifest l).entries = dedupFirst (validEntries l) [] := by
    simpa [validateManifest] using vmGo_entries_eq l 0 []
  refine ⟨hent, ?_, ?_⟩
  · rw [hent]
    exact dedupFirst_nodup _ _
  · intro t1 t2 h h1 h2 h3 hne hsub
    have hv1 : entryValid ⟨t1, h⟩ = true := by simp [entryValid, h1, h3]
    have hv2 : entryValid ⟨t2, h⟩ = true := by simp [entryValid, h2, h3]
    simpa [validateManifest] using
      vmGo_collision_of_pair l 0 [] t1 t2 h hsub hv1 hv2 hne rfl

/-- C9 witness: a two-entry manifest with colliding hashes and different
texts produces a collision warning naming the hash. -/
theorem validateManifest_spec_witness :
    ∃ ta tb, ta ≠ tb ∧
      collisionMsg "h1" ta tb ∈
        (validateManifest [some ⟨"A", "h1"⟩, some ⟨"B", "h1"⟩]).warnings :=
  (validateManifest_spec [some ⟨"A", "h1"⟩, some ⟨"B", "h1"⟩]).2.2 "A" "B" "h1"
    (by decide) (by decide) (by decide) (by decide) (List.Sublist.refl _)

end Lingua
